import Mathlib

/-
Verification of the tcloud-assets-include build-time asset pipeline
(src/lib.rs) against its natural-language specification.

The Rust source is shallowly embedded as follows:

* The two process-wide `OnceLock<Vec<&str>>` stores (`NO_MANGLE` and
  `OTHER_EXTENSIONS`) become values of type `Option (List String)`;
  `none` is an unset store.  `set_nomangle` / `set_other_extensions`
  return `Except String` so that the `expect` panic attached to
  `OnceLock::set` is observable as a fatal error.
* Filesystem contents are explicit: a source tree is a `Node`
  (file or directory); a directory holds an `Entries` sequence that
  also records the two per-entry failure modes of `read_dir` that
  the code meets (an `Err` entry, skipped by `.flatten()`, and an
  entry whose `file_type()` call fails, skipped by `if let Ok`).
  A file's content is `FileData`: either valid UTF-8 text or bytes
  that do not decode (on which `fs::read_to_string` fails).
* The walker does not mutate a filesystem directly; it produces a
  list of filesystem operations (`FsOp`).  Destination-side
  semantics of `std::fs` (`create_dir_all` creates the directory and
  all missing ancestors and succeeds when they already exist;
  `fs::write` / `fs::copy` overwrite an existing file) are modelled
  by `applyOp` on an explicit destination state.  Destination writes
  are assumed to succeed (the destination is writable), which is the
  regime all of the verified claims speak about.
* The three external minifier libraries (lightningcss, oxc,
  minify_html) are out of scope per the spec and are represented by
  opaque constructors of `Content` that record exactly the inputs
  and options the code wires into them; in particular the oxc
  `MinifierOptions { mangle, compress }` and the codegen
  `minify: true` flag are recorded verbatim.  `minify_css`'s
  possible parse panic on malformed CSS text is not modelled (no
  claim concerns it).
* Rust `str::ends_with` is modelled on the underlying character
  list, and paths are joined with `'/'` exactly as `PathBuf::push`
  renders them on Unix.
-/

namespace TcloudAssets

/-- Content of a source file: either valid UTF-8 text, or bytes that fail
to decode as UTF-8 (on which `fs::read_to_string` returns an error). -/
inductive FileData : Type where
  | text : String → FileData
  | binary : FileData
deriving DecidableEq

/-- Rust `str::ends_with(suffix)`, modelled on the character list. -/
def strEndsWith (s suffix : String) : Bool :=
  suffix.data.isSuffixOf s.data

/-- The write-once configuration stores, `NO_MANGLE` and `OTHER_EXTENSIONS`
in the source.  `none` models an unset `OnceLock`. -/
structure Config where
  no_mangle : Option (List String)
  other_extensions : Option (List String)
deriving DecidableEq

/-- `OnceLock::set`: records the value if the cell is unset, otherwise
returns an error (which the callers turn into a panic via `expect`). -/
def onceLock_set (store : Option (List String)) (v : List String) :
    Except Unit (Option (List String)) :=
  match store with
  | none => Except.ok (some v)
  | some _ => Except.error ()

/-- `set_nomangle` (src/lib.rs:39-45): if `files` is non-empty and the store
is unset, set it; the `expect` message is the fatal error attached to a
failing `OnceLock::set`.  In every other case the function returns without
touching the store. -/
def set_nomangle (store : Option (List String)) (files : List String) :
    Except String (Option (List String)) :=
  if !files.isEmpty && store.isNone then
    match onceLock_set store files with
    | Except.ok s => Except.ok s
    | Except.error _ =>
        Except.error "Failed to set NO_MANGLE file list: already initialiazed"
  else
    Except.ok store

/-- `check_nomangle` (src/lib.rs:47-53): exact membership test against the
`NO_MANGLE` store; `false` when the store is unset. -/
def check_nomangle (store : Option (List String)) (file : String) : Bool :=
  match store with
  | some nomangle => nomangle.contains file
  | none => false

/-- `set_other_extensions` (src/lib.rs:57-63): same shape as `set_nomangle`
for the `OTHER_EXTENSIONS` store. -/
def set_other_extensions (store : Option (List String)) (ext : List String) :
    Except String (Option (List String)) :=
  if !ext.isEmpty && store.isNone then
    match onceLock_set store ext with
    | Except.ok s => Except.ok s
    | Except.error _ =>
        Except.error "Failed to set OTHER_EXTENSIONS list: already initialiazed"
  else
    Except.ok store

/-- `check_extension` (src/lib.rs:65-74): suffix match of the filename
against any registered extension; `false` when the store is unset.  The
source's for-loop with early `return true` is the `List.any` fold. -/
def check_extension (store : Option (List String)) (file : String) : Bool :=
  match store with
  | some other_extensions => other_extensions.any (fun e => strEndsWith file e)
  | none => false

/-- Path concatenation as performed by `PathBuf::push` / `Path::join` on a
relative path rendered with `/` separators. -/
def pathJoin (dir file : String) : String :=
  if dir = "" then file else dir ++ "/" ++ file

/-- The oxc `MinifierOptions` record built in `minify_js`
(src/lib.rs:84-87): `mangle` toggled per file, `compress` always the
default compression pass. -/
structure MinifierOptions where
  mangle : Bool
  compress : Bool
deriving DecidableEq

/-- Output written to a destination file.  The minifier libraries are
opaque collaborators, so minified output is represented by a constructor
recording the source text handed to the library together with the options
the code configures; `bytes` is a verbatim copy of the source file. -/
inductive Content : Type where
  | bytes : FileData → Content
  | cssMin : String → Content
  | jsMin : MinifierOptions → Bool → String → Content
  | htmlMin : String → Content
deriving DecidableEq

/-- `minify_js` (src/lib.rs:80-97): parses `src`, runs the minifier with
`mangle: !check_nomangle(filename)` and the default compression pass, and
emits with `CodegenOptions { minify: true }` (the `true` argument of
`jsMin`). -/
def minify_js (no_mangle : Option (List String)) (filename : String)
    (src : String) : Content :=
  Content.jsMin
    { mangle := !check_nomangle no_mangle filename, compress := true }
    true src

/-- `minify_css` (src/lib.rs:99-112): parse, minify, print compact. -/
def minify_css (src : String) : Content :=
  Content.cssMin src

/-- `minify_html` (src/lib.rs:114-117): minify with the default config. -/
def minify_html (src : String) : Content :=
  Content.htmlMin src

/-- A filesystem operation performed on the destination tree.  Paths are
segment lists rooted at `OUT_DIR`. -/
inductive FsOp : Type where
  | mkdirAll : List String → FsOp
  | copy : List String → FileData → FsOp
  | write : List String → Content → FsOp
deriving DecidableEq

/-- `fs::read_to_string`: succeeds exactly on valid UTF-8 text. -/
def read_to_string (d : FileData) : Except Unit String :=
  match d with
  | FileData.text s => Except.ok s
  | FileData.binary => Except.error ()

/-- `handle_file` (src/lib.rs:119-163).  `parent` is the path of the
containing directory, `name` the file's final component (the code's
`get_filename`), so the code's `path` is their join.  The emitted
operations are the destination writes the code performs; an `Except.error`
is a panic aborting the run. -/
def handle_file (cfg : Config) (parent : String) (name : String)
    (data : FileData) (out_dir : List String) : Except String (List FsOp) :=
  let path := pathJoin parent name
  if check_extension cfg.other_extensions name then
    Except.ok [FsOp.copy (out_dir ++ [name]) data]
  else if strEndsWith path ".css" then
    match read_to_string data with
    | Except.ok src => Except.ok [FsOp.write (out_dir ++ [name]) (minify_css src)]
    | Except.error _ => Except.error ("Failed to read " ++ path)
  else if strEndsWith path ".js" then
    match read_to_string data with
    | Except.ok src =>
        Except.ok [FsOp.write (out_dir ++ [name]) (minify_js cfg.no_mangle name src)]
    | Except.error _ => Except.error ("Failed to read " ++ path)
  else if strEndsWith path ".html" then
    match read_to_string data with
    | Except.ok src => Except.ok [FsOp.write (out_dir ++ [name]) (minify_html src)]
    | Except.error _ => Except.error ("Failed to read " ++ path)
  else
    Except.ok []

/-- The three built-in web file types. -/
inductive WebType : Type where
  | css
  | js
  | html
deriving DecidableEq

/-- The spec's FileVerdict (§3): outcome of classifying a single file. -/
inductive FileVerdict : Type where
  | passthroughCopy
  | minifyAs : WebType → FileVerdict
  | ignore
deriving DecidableEq

/-- Modelled from the spec: the Classifier contract of §4.2, stated on the
filename in the spec's own priority order (passthrough first, then `.css`,
`.js`, `.html`, else Ignore).  The code inlines this dispatch in
`handle_file`; `handle_file_classified` below proves the two agree. -/
def classifySpec (cfg : Config) (name : String) : FileVerdict :=
  if check_extension cfg.other_extensions name then
    FileVerdict.passthroughCopy
  else if strEndsWith name ".css" then
    FileVerdict.minifyAs WebType.css
  else if strEndsWith name ".js" then
    FileVerdict.minifyAs WebType.js
  else if strEndsWith name ".html" then
    FileVerdict.minifyAs WebType.html
  else
    FileVerdict.ignore

/-- Minified content produced for a web file of type `w` named `name` with
source text `src`, as wired by `handle_file`. -/
def minifiedContent (cfg : Config) (w : WebType) (name : String)
    (src : String) : Content :=
  match w with
  | WebType.css => minify_css src
  | WebType.js => minify_js cfg.no_mangle name src
  | WebType.html => minify_html src

mutual
/-- A node of the source tree: a file with content, or a directory with a
name, a flag recording whether `fs::read_dir` succeeds on it, and its
entries. -/
inductive Node : Type where
  | file : String → FileData → Node
  | dir : String → Bool → Entries → Node

/-- The sequence a `read_dir` iterator yields for a directory.  Besides
well-read child nodes it can contain an `Err` entry (dropped by the code's
`.flatten()`) and an entry whose `file_type()` call fails (dropped by the
code's `if let Ok (file_type)`). -/
inductive Entries : Type where
  | nil : Entries
  | consGood : Node → Entries → Entries
  | consEntryErr : Entries → Entries
  | consTypeErr : Entries → Entries
end

/-- Final path component of a node, the code's `file_name()`. -/
def nodeName : Node → String
  | Node.file n _ => n
  | Node.dir n _ _ => n

mutual
/-- `handle_directory` (src/lib.rs:165-182) and its entry loop, as a pure
function from the source (sub)tree to the list of destination operations.
`handle_node` is the per-entry dispatch on `file_type()`: directories
recurse, files go to `handle_file`.  A directory prepends
`create_dir_all(new_dir)` to its children's operations; if its `read_dir`
fails the run aborts with the code's panic message.  An `Err` dir-entry
and an entry with a failing `file_type()` produce no operations and no
error: the loop continues with the rest. -/
def handle_node (cfg : Config) (parent : String) (n : Node)
    (out_dir : List String) : Except String (List FsOp) :=
  match n with
  | Node.file name data => handle_file cfg parent name data out_dir
  | Node.dir name readable es =>
    let srcPath := pathJoin parent name
    let new_dir := out_dir ++ [name]
    if readable then
      match handle_entries cfg srcPath es new_dir with
      | Except.ok ops => Except.ok (FsOp.mkdirAll new_dir :: ops)
      | Except.error e => Except.error e
    else
      Except.error ("Failed to read files of " ++ srcPath)

def handle_entries (cfg : Config) (srcPath : String) (es : Entries)
    (new_dir : List String) : Except String (List FsOp) :=
  match es with
  | Entries.nil => Except.ok []
  | Entries.consGood n rest =>
    match handle_node cfg srcPath n new_dir with
    | Except.ok ops₁ =>
      match handle_entries cfg srcPath rest new_dir with
      | Except.ok ops₂ => Except.ok (ops₁ ++ ops₂)
      | Except.error e => Except.error e
    | Except.error e => Except.error e
  | Entries.consEntryErr rest => handle_entries cfg srcPath rest new_dir
  | Entries.consTypeErr rest => handle_entries cfg srcPath rest new_dir
end

/-- `include` (src/lib.rs:198-205): initialize the two stores, resolve
`OUT_DIR` (absence is fatal), then mirror the tree rooted at `root`.  The
result pairs the configuration after initialization with the destination
operations. -/
def include_run (cfg : Config) (root : Node)
    (other_extensions no_mangle : List String)
    (out_dir : Option (List String)) : Except String (Config × List FsOp) :=
  match set_other_extensions cfg.other_extensions other_extensions with
  | Except.error e => Except.error e
  | Except.ok oe =>
    match set_nomangle cfg.no_mangle no_mangle with
    | Except.error e => Except.error e
    | Except.ok nm =>
      match out_dir with
      | none => Except.error "Failed to get OUT_DIR env variable"
      | some out =>
        let cfg' : Config := { no_mangle := nm, other_extensions := oe }
        match handle_node cfg' "" root out with
        | Except.ok ops => Except.ok (cfg', ops)
        | Except.error e => Except.error e

mutual
/-- Relative destination paths (starting with the node's own name) of
every directory of the subtree, the root directory itself included. -/
def ndirs : Node → List (List String)
  | Node.file _ _ => []
  | Node.dir nm _ es => [nm] :: (edirs es).map (fun p => nm :: p)

def edirs : Entries → List (List String)
  | Entries.nil => []
  | Entries.consGood n rest => ndirs n ++ edirs rest
  | Entries.consEntryErr rest => edirs rest
  | Entries.consTypeErr rest => edirs rest
end

mutual
/-- Relative paths of the files of the subtree, each tagged with the
content the run writes for it (`some c`) or `none` for an Ignore verdict.
A file with a MinifyAs verdict whose content does not decode is absent
from this list: on such a file the run aborts and produces no trace at
all. -/
def nleaves (cfg : Config) : Node → List (List String × Option Content)
  | Node.file nm data =>
    match classifySpec cfg nm with
    | FileVerdict.passthroughCopy => [([nm], some (Content.bytes data))]
    | FileVerdict.minifyAs w =>
      match data with
      | FileData.text src => [([nm], some (minifiedContent cfg w nm src))]
      | FileData.binary => []
    | FileVerdict.ignore => [([nm], none)]
  | Node.dir nm _ es => (eleaves cfg es).map (fun pc => (nm :: pc.1, pc.2))

def eleaves (cfg : Config) : Entries → List (List String × Option Content)
  | Entries.nil => []
  | Entries.consGood n rest => nleaves cfg n ++ eleaves cfg rest
  | Entries.consEntryErr rest => eleaves cfg rest
  | Entries.consTypeErr rest => eleaves cfg rest
end

/-- Names of the well-read entries of a directory listing. -/
def goodNames : Entries → List String
  | Entries.nil => []
  | Entries.consGood n rest => nodeName n :: goodNames rest
  | Entries.consEntryErr rest => goodNames rest
  | Entries.consTypeErr rest => goodNames rest

/-- Boolean no-duplicates check on a name list. -/
def nodupStr : List String → Bool
  | [] => true
  | x :: xs => !xs.contains x && nodupStr xs

mutual
/-- Well-formedness of a source tree as a real filesystem guarantees it:
sibling names within each directory are distinct. -/
def wfN : Node → Bool
  | Node.file _ _ => true
  | Node.dir _ _ es => nodupStr (goodNames es) && wfE es

def wfE : Entries → Bool
  | Entries.nil => true
  | Entries.consGood n rest => wfN n && wfE rest
  | Entries.consEntryErr rest => wfE rest
  | Entries.consTypeErr rest => wfE rest
end

/-- An entry of the destination filesystem: a directory or a file with
its written content. -/
inductive Entry : Type where
  | dirE : Entry
  | fileE : Content → Entry
deriving DecidableEq

/-- Destination filesystem state: what (if anything) sits at each
segment-list path. -/
def DestState : Type := List String → Option Entry

/-- Boolean segment-list prefix test (is `q` an initial segment of `p`). -/
def segPre : List String → List String → Bool
  | [], _ => true
  | _ :: _, [] => false
  | a :: q, b :: p => a == b && segPre q p

/-- Semantics of one destination operation, per the `std::fs` contract:
`create_dir_all` makes the directory and every missing ancestor a
directory and is a no-op on those that exist; `fs::write` and `fs::copy`
create or overwrite the destination file. -/
def applyOp (s : DestState) : FsOp → DestState
  | FsOp.mkdirAll p => fun q =>
      if !q.isEmpty && segPre q p then some Entry.dirE else s q
  | FsOp.copy p d => fun q => if q = p then some (Entry.fileE (Content.bytes d)) else s q
  | FsOp.write p c => fun q => if q = p then some (Entry.fileE c) else s q

/-- Run a whole operation list left to right on a destination state. -/
def applyOps (t : List FsOp) (s : DestState) : DestState :=
  t.foldl applyOp s

/-- Effect of a single operation on one path: `some e` if the operation
sets the path to `e`, `none` if it leaves the path alone. -/
def effectOn (op : FsOp) (q : List String) : Option Entry :=
  match op with
  | FsOp.mkdirAll p => if !q.isEmpty && segPre q p then some Entry.dirE else none
  | FsOp.copy p d => if q = p then some (Entry.fileE (Content.bytes d)) else none
  | FsOp.write p c => if q = p then some (Entry.fileE c) else none

/-- Last effect an operation list has on one path, if any. -/
def lastEff (t : List FsOp) (q : List String) : Option Entry :=
  match t with
  | [] => none
  | op :: rest =>
    match lastEff rest q with
    | some e => some e
    | none => effectOn op q

/-- The operation `op` ends with content `c` sitting at path `p`: it is
the matching `fs::write`, or a `fs::copy` of the raw bytes `c` wraps. -/
def setsFile (op : FsOp) (p : List String) (c : Content) : Prop :=
  op = FsOp.write p c ∨ ∃ d, op = FsOp.copy p d ∧ c = Content.bytes d

/-- A small concrete configuration used to exercise the theorems below on
closed inputs (it mirrors the crate's own test configuration). -/
def sampleCfg : Config :=
  { no_mangle := some ["example.nomangle.js"], other_extensions := some [".test"] }

/-- A small concrete source tree exercising every verdict: a minified CSS
file, a mangled and an exempted JS file, a passthrough binary and an
ignored file inside a subdirectory. -/
def sampleTree : Node :=
  Node.dir "assets" true
    (Entries.consGood (Node.file "a.css" (FileData.text "b { }"))
      (Entries.consGood (Node.file "app.js" (FileData.text "let x = 1;"))
        (Entries.consGood (Node.file "example.nomangle.js" (FileData.text "let y = 2;"))
          (Entries.consGood (Node.dir "sub" true
            (Entries.consGood (Node.file "f.test" FileData.binary)
              (Entries.consGood (Node.file "skip.txt" (FileData.text "hi"))
                Entries.nil)))
            Entries.nil))))

/-- The operation list the walker emits for `sampleTree` under
`sampleCfg` with destination root `["o"]`. -/
def sampleTrace : List FsOp :=
  [FsOp.mkdirAll ["o", "assets"],
   FsOp.write ["o", "assets", "a.css"] (Content.cssMin "b { }"),
   FsOp.write ["o", "assets", "app.js"]
     (Content.jsMin { mangle := true, compress := true } true "let x = 1;"),
   FsOp.write ["o", "assets", "example.nomangle.js"]
     (Content.jsMin { mangle := false, compress := true } true "let y = 2;"),
   FsOp.mkdirAll ["o", "assets", "sub"],
   FsOp.copy ["o", "assets", "sub", "f.test"] FileData.binary]

/-- `List.contains` on strings tests membership. -/
theorem contains_iff (l : List String) (a : String) :
    l.contains a = true ↔ a ∈ l := by
  simp [List.contains, List.elem_iff]

/-- `segPre` decides the segment-list prefix relation. -/
theorem segPre_iff : ∀ (q p : List String), segPre q p = true ↔ q <+: p
  | [], p => by
    simp only [segPre]
    exact iff_of_true trivial ⟨p, rfl⟩
  | a :: q, [] => by
    simp [segPre, List.prefix_nil]
  | a :: q, b :: p => by
    simp [segPre, Bool.and_eq_true, beq_iff_eq, segPre_iff q p,
      List.cons_prefix_cons]

/-- A separator-free suffix matches across a path separator exactly when
it matches the final component. -/
theorem isSuffixOf_slash (ext pre nm : List Char) (h : ('/' : Char) ∉ ext) :
    ext.isSuffixOf (pre ++ '/' :: nm) = ext.isSuffixOf nm := by
  apply Bool.coe_iff_coe.mp
  rw [List.isSuffixOf_iff_suffix, List.isSuffixOf_iff_suffix]
  constructor
  · intro hs
    have hn : ('/' :: nm) <:+ (pre ++ '/' :: nm) := List.suffix_append pre _
    rcases List.suffix_or_suffix_of_suffix hs hn with h1 | h2
    · rcases List.suffix_cons_iff.mp h1 with rfl | h3
      · exact absurd (List.mem_cons_self _ _) h
      · exact h3
    · exact absurd (h2.subset (List.mem_cons_self _ _)) h
  · intro hs
    exact hs.trans ((List.suffix_cons '/' nm).trans (List.suffix_append pre _))

/-- The code's `path.ends_with(ext)` checks on the joined path agree with
the same check on the filename for any extension not containing the path
separator (in particular `.css`, `.js`, `.html`). -/
theorem strEndsWith_pathJoin (parent name ext : String)
    (h : ('/' : Char) ∉ ext.data) :
    strEndsWith (pathJoin parent name) ext = strEndsWith name ext := by
  unfold pathJoin
  split
  · rfl
  · simp only [strEndsWith]
    have hd : (parent ++ "/" ++ name).data = parent.data ++ '/' :: name.data := by
      cases parent with
      | mk pd =>
        cases name with
        | mk nd =>
          show (pd ++ ['/']) ++ nd = pd ++ '/' :: nd
          simp
    rw [hd]
    exact isSuffixOf_slash ext.data parent.data name.data h

/-- `handle_file` implements the spec's Classifier verdict-by-verdict:
passthrough files are copied verbatim, minify verdicts read the text and
write the minified content (and abort when the content does not decode),
and Ignore produces no operation. -/
theorem handle_file_classified (cfg : Config) (parent name : String)
    (data : FileData) (out_dir : List String) :
    handle_file cfg parent name data out_dir =
      match classifySpec cfg name, data with
      | FileVerdict.passthroughCopy, _ =>
          Except.ok [FsOp.copy (out_dir ++ [name]) data]
      | FileVerdict.minifyAs w, FileData.text src =>
          Except.ok [FsOp.write (out_dir ++ [name]) (minifiedContent cfg w name src)]
      | FileVerdict.minifyAs _, FileData.binary =>
          Except.error ("Failed to read " ++ pathJoin parent name)
      | FileVerdict.ignore, _ => Except.ok [] := by
  have hcss := strEndsWith_pathJoin parent name ".css" (by decide)
  have hjs := strEndsWith_pathJoin parent name ".js" (by decide)
  have hhtml := strEndsWith_pathJoin parent name ".html" (by decide)
  cases hce : check_extension cfg.other_extensions name <;>
    cases hc : strEndsWith name ".css" <;>
      cases hj : strEndsWith name ".js" <;>
        cases hh : strEndsWith name ".html" <;>
          cases data <;>
            simp [handle_file, classifySpec, hce, hc, hj, hh, hcss, hjs, hhtml,
              read_to_string, minifiedContent]

/-- One applied operation seen through its effect on a single path. -/
theorem applyOp_effectOn (s : DestState) (op : FsOp) (q : List String) :
    applyOp s op q =
      match effectOn op q with
      | some e => some e
      | none => s q := by
  cases op <;> simp only [applyOp, effectOn] <;> split <;> rfl

/-- A run's value at a path is its last effect there, else the initial
value. -/
theorem applyOps_lastEff : ∀ (t : List FsOp) (s : DestState) (q : List String),
    applyOps t s q =
      match lastEff t q with
      | some e => some e
      | none => s q
  | [], _, _ => rfl
  | op :: t, s, q => by
    have h1 : applyOps (op :: t) s q = applyOps t (applyOp s op) q := rfl
    rw [h1, applyOps_lastEff t (applyOp s op) q]
    show _ = match lastEff (op :: t) q with | some e => some e | none => s q
    simp only [lastEff]
    cases h : lastEff t q with
    | some e => simp
    | none => simpa using applyOp_effectOn s op q

/-- A recorded last effect comes from some operation of the list. -/
theorem lastEff_mem : ∀ (t : List FsOp) (q : List String) (e : Entry),
    lastEff t q = some e → ∃ op ∈ t, effectOn op q = some e
  | [], q, e => by simp [lastEff]
  | op :: t, q, e => by
    simp only [lastEff]
    cases h : lastEff t q with
    | some e' =>
      intro he
      obtain ⟨op', hm, heff⟩ := lastEff_mem t q e' h
      injection he with he
      exact ⟨op', List.mem_cons_of_mem op hm, by rw [heff, he]⟩
    | none =>
      intro he
      exact ⟨op, List.mem_cons_self op t, he⟩

/-- If no operation of the list affects a path, the list has no last
effect there. -/
theorem lastEff_eq_none : ∀ (t : List FsOp) (q : List String),
    (∀ op ∈ t, effectOn op q = none) → lastEff t q = none
  | [], _ => fun _ => rfl
  | op :: t, q => by
    intro hall
    simp only [lastEff]
    rw [lastEff_eq_none t q (fun op' h => hall op' (List.mem_cons_of_mem op h))]
    exact hall op (List.mem_cons_self op t)

/-- Conversely, any operation of a list with no last effect on a path
leaves that path alone. -/
theorem lastEff_none_all : ∀ (t : List FsOp) (q : List String),
    lastEff t q = none → ∀ op ∈ t, effectOn op q = none
  | [], q => by simp
  | op :: t, q => by
    simp only [lastEff]
    cases h : lastEff t q with
    | some e => intro he; exact absurd he (by simp)
    | none =>
      intro he op' hm'
      rcases List.mem_cons.mp hm' with rfl | hm'
      · exact he
      · exact lastEff_none_all t q h op' hm'

/-- If every operation either skips a path or sets it to `e`, and at
least one sets it, the last effect is `e`. -/
theorem lastEff_of_all : ∀ (t : List FsOp) (q : List String) (e : Entry),
    (∀ op ∈ t, effectOn op q = none ∨ effectOn op q = some e) →
    (∃ op ∈ t, effectOn op q = some e) →
    lastEff t q = some e
  | [], q, e => by simp
  | op :: t, q, e => by
    intro hall hex
    simp only [lastEff]
    cases h : lastEff t q with
    | some e' =>
      obtain ⟨op', hm, heff⟩ := lastEff_mem t q e' h
      rcases hall op' (List.mem_cons_of_mem op hm) with h0 | h0
      · rw [heff] at h0; exact absurd h0 (by simp)
      · rw [heff] at h0
        injection h0 with h0
        rw [h0]
    | none =>
      rcases hex with ⟨op', hm', heff'⟩
      rcases List.mem_cons.mp hm' with rfl | hm'
      · exact heff'
      · rw [lastEff_none_all t q h op' hm'] at heff'
        exact absurd heff' (by simp)

/-- Final state at a path every relevant operation paints with `e`. -/
theorem applyOps_of_all (t : List FsOp) (q : List String) (e : Entry)
    (hall : ∀ op ∈ t, effectOn op q = none ∨ effectOn op q = some e)
    (hex : ∃ op ∈ t, effectOn op q = some e) (s : DestState) :
    applyOps t s q = some e := by
  rw [applyOps_lastEff, lastEff_of_all t q e hall hex]

/-- Final state at a path no operation touches. -/
theorem applyOps_untouched (t : List FsOp) (q : List String)
    (hall : ∀ op ∈ t, effectOn op q = none) (s : DestState) :
    applyOps t s q = s q := by
  rw [applyOps_lastEff, lastEff_eq_none t q hall]

/-- An operation that sets a file at `y` affects exactly `y`. -/
theorem setsFile_effect (op : FsOp) (y : List String) (c : Content)
    (h : setsFile op y c) (x : List String) :
    effectOn op x = if x = y then some (Entry.fileE c) else none := by
  rcases h with rfl | ⟨d, rfl, rfl⟩ <;> simp [effectOn]

/-- A `create_dir_all` affects a path as a directory or not at all. -/
theorem effect_mkdir_cases (p x : List String) :
    effectOn (FsOp.mkdirAll p) x = none ∨
    effectOn (FsOp.mkdirAll p) x = some Entry.dirE := by
  simp only [effectOn]
  split
  · exact Or.inr rfl
  · exact Or.inl rfl

/-- Every leaf path of a node starts with the node's own name. -/
theorem nleaves_head (cfg : Config) (n : Node) (q : List String)
    (x : Option Content) (h : (q, x) ∈ nleaves cfg n) :
    ∃ q', q = nodeName n :: q' := by
  cases n with
  | file nm data =>
    cases hcl : classifySpec cfg nm with
    | passthroughCopy =>
      simp [nleaves, hcl] at h
      exact ⟨[], by simp [nodeName, h.1]⟩
    | minifyAs w =>
      cases data <;> simp [nleaves, hcl] at h
      exact ⟨[], by simp [nodeName, h.1]⟩
    | ignore =>
      simp [nleaves, hcl] at h
      exact ⟨[], by simp [nodeName, h.1]⟩
  | dir nm r es =>
    simp only [nleaves, List.mem_map] at h
    obtain ⟨a, _, heq⟩ := h
    injection heq with h1 h2
    exact ⟨a.1, by rw [← h1]; rfl⟩

/-- Every directory path of a node starts with the node's own name. -/
theorem ndirs_head (n : Node) (p : List String) (h : p ∈ ndirs n) :
    ∃ p', p = nodeName n :: p' := by
  cases n with
  | file nm data => simp [ndirs] at h
  | dir nm r es =>
    simp [ndirs, List.mem_map] at h
    rcases h with rfl | ⟨p₁, _, rfl⟩
    · exact ⟨[], rfl⟩
    · exact ⟨p₁, rfl⟩

/-- Every leaf path of a directory listing starts with the name of one of
its well-read entries. -/
theorem eleaves_head (cfg : Config) :
    ∀ (es : Entries) (q : List String) (x : Option Content),
      (q, x) ∈ eleaves cfg es →
      ∃ nm q', q = nm :: q' ∧ nm ∈ goodNames es
  | Entries.nil, q, x => by simp [eleaves]
  | Entries.consGood n rest, q, x => by
    simp only [eleaves, List.mem_append]
    rintro (h | h)
    · obtain ⟨q', rfl⟩ := nleaves_head cfg n q x h
      exact ⟨nodeName n, q', rfl, by simp [goodNames]⟩
    · obtain ⟨nm, q', rfl, hg⟩ := eleaves_head cfg rest q x h
      exact ⟨nm, q', rfl, by simp [goodNames, hg]⟩
  | Entries.consEntryErr rest, q, x => by
    intro h
    obtain ⟨nm, q', rfl, hg⟩ := eleaves_head cfg rest q x h
    exact ⟨nm, q', rfl, by simp [goodNames, hg]⟩
  | Entries.consTypeErr rest, q, x => by
    intro h
    obtain ⟨nm, q', rfl, hg⟩ := eleaves_head cfg rest q x h
    exact ⟨nm, q', rfl, by simp [goodNames, hg]⟩

/-- Every directory path of a listing starts with the name of one of its
well-read entries. -/
theorem edirs_head :
    ∀ (es : Entries) (p : List String),
      p ∈ edirs es → ∃ nm p', p = nm :: p' ∧ nm ∈ goodNames es
  | Entries.nil, p => by simp [edirs]
  | Entries.consGood n rest, p => by
    simp only [edirs, List.mem_append]
    rintro (h | h)
    · obtain ⟨p', rfl⟩ := ndirs_head n p h
      exact ⟨nodeName n, p', rfl, by simp [goodNames]⟩
    · obtain ⟨nm, p', rfl, hg⟩ := edirs_head rest p h
      exact ⟨nm, p', rfl, by simp [goodNames, hg]⟩
  | Entries.consEntryErr rest, p => by
    intro h
    obtain ⟨nm, p', rfl, hg⟩ := edirs_head rest p h
    exact ⟨nm, p', rfl, by simp [goodNames, hg]⟩
  | Entries.consTypeErr rest, p => by
    intro h
    obtain ⟨nm, p', rfl, hg⟩ := edirs_head rest p h
    exact ⟨nm, p', rfl, by simp [goodNames, hg]⟩

mutual
/-- Every operation of a successful walk is either the creation of one of
the subtree's directories or a file write recorded in `nleaves`, in both
cases at the destination path obtained by appending the relative source
path to the destination root. -/
theorem trace_shape_node : ∀ (n : Node) (cfg : Config) (parent : String)
    (out_dir : List String) (t : List FsOp),
    handle_node cfg parent n out_dir = Except.ok t →
    ∀ op ∈ t,
      (∃ p ∈ ndirs n, op = FsOp.mkdirAll (out_dir ++ p)) ∨
      (∃ q c, (q, some c) ∈ nleaves cfg n ∧ setsFile op (out_dir ++ q) c)
  | Node.file nm data, cfg, parent, out_dir, t => by
    intro hok op hop
    rw [show handle_node cfg parent (Node.file nm data) out_dir =
        handle_file cfg parent nm data out_dir from rfl,
      handle_file_classified] at hok
    cases hcl : classifySpec cfg nm with
    | passthroughCopy =>
      rw [hcl] at hok
      cases data <;>
      · injection hok with ht
        subst ht
        simp only [List.mem_singleton] at hop
        subst hop
        refine Or.inr ⟨[nm], Content.bytes _, ?_, Or.inr ⟨_, rfl, rfl⟩⟩
        simp [nleaves, hcl]
    | minifyAs w =>
      rw [hcl] at hok
      cases data with
      | text src =>
        injection hok with ht
        subst ht
        simp only [List.mem_singleton] at hop
        subst hop
        refine Or.inr ⟨[nm], minifiedContent cfg w nm src, ?_, Or.inl rfl⟩
        simp [nleaves, hcl]
      | binary => exact Except.noConfusion hok
    | ignore =>
      rw [hcl] at hok
      cases data <;>
      · injection hok with ht
        subst ht
        simp at hop
  | Node.dir nm readable es, cfg, parent, out_dir, t => by
    intro hok op hop
    cases readable with
    | false => simp [handle_node] at hok
    | true =>
      rw [show handle_node cfg parent (Node.dir nm true es) out_dir =
          (match handle_entries cfg (pathJoin parent nm) es (out_dir ++ [nm]) with
           | Except.ok ops => Except.ok (FsOp.mkdirAll (out_dir ++ [nm]) :: ops)
           | Except.error e => Except.error e) from rfl] at hok
      cases he : handle_entries cfg (pathJoin parent nm) es (out_dir ++ [nm]) with
      | error e => rw [he] at hok; exact Except.noConfusion hok
      | ok ops =>
        rw [he] at hok
        injection hok with ht
        subst ht
        rcases List.mem_cons.mp hop with rfl | hm
        · exact Or.inl ⟨[nm], by simp [ndirs], rfl⟩
        · rcases trace_shape_entries es cfg (pathJoin parent nm) (out_dir ++ [nm]) ops
              he op hm with ⟨p, hp, rfl⟩ | ⟨q, c, hqc, hset⟩
          · refine Or.inl ⟨nm :: p, ?_, by simp⟩
            rw [show ndirs (Node.dir nm true es) =
                [nm] :: (edirs es).map (fun p => nm :: p) from rfl]
            exact List.mem_cons_of_mem _ (List.mem_map.mpr ⟨p, hp, rfl⟩)
          · refine Or.inr ⟨nm :: q, c, ?_, ?_⟩
            · rw [show nleaves cfg (Node.dir nm true es) =
                  (eleaves cfg es).map (fun pc => (nm :: pc.1, pc.2)) from rfl]
              exact List.mem_map.mpr ⟨(q, some c), hqc, rfl⟩
            · have hx : (out_dir ++ [nm]) ++ q = out_dir ++ nm :: q := by simp
              rwa [hx] at hset

/-- Entries-level version of `trace_shape_node`. -/
theorem trace_shape_entries : ∀ (es : Entries) (cfg : Config) (srcPath : String)
    (new_dir : List String) (t : List FsOp),
    handle_entries cfg srcPath es new_dir = Except.ok t →
    ∀ op ∈ t,
      (∃ p ∈ edirs es, op = FsOp.mkdirAll (new_dir ++ p)) ∨
      (∃ q c, (q, some c) ∈ eleaves cfg es ∧ setsFile op (new_dir ++ q) c)
  | Entries.nil, cfg, srcPath, new_dir, t => by
    intro hok op hop
    injection hok with ht
    subst ht
    simp at hop
  | Entries.consGood n rest, cfg, srcPath, new_dir, t => by
    intro hok op hop
    rw [show handle_entries cfg srcPath (Entries.consGood n rest) new_dir =
        (match handle_node cfg srcPath n new_dir with
         | Except.ok ops₁ =>
           match handle_entries cfg srcPath rest new_dir with
           | Except.ok ops₂ => Except.ok (ops₁ ++ ops₂)
           | Except.error e => Except.error e
         | Except.error e => Except.error e) from rfl] at hok
    cases h1 : handle_node cfg srcPath n new_dir with
    | error e => rw [h1] at hok; exact Except.noConfusion hok
    | ok ops₁ =>
      rw [h1] at hok
      cases h2 : handle_entries cfg srcPath rest new_dir with
      | error e => rw [h2] at hok; exact Except.noConfusion hok
      | ok ops₂ =>
        rw [h2] at hok
        injection hok with ht
        subst ht
        have edge : edirs (Entries.consGood n rest) = ndirs n ++ edirs rest := rfl
        have eleq : eleaves cfg (Entries.consGood n rest) =
            nleaves cfg n ++ eleaves cfg rest := rfl
        rcases List.mem_append.mp hop with hm | hm
        · rcases trace_shape_node n cfg srcPath new_dir ops₁ h1 op hm with
            ⟨p, hp, rfl⟩ | ⟨q, c, hqc, hset⟩
          · exact Or.inl ⟨p, by rw [edge]; exact List.mem_append.mpr (Or.inl hp), rfl⟩
          · exact Or.inr ⟨q, c, by rw [eleq]; exact List.mem_append.mpr (Or.inl hqc), hset⟩
        · rcases trace_shape_entries rest cfg srcPath new_dir ops₂ h2 op hm with
            ⟨p, hp, rfl⟩ | ⟨q, c, hqc, hset⟩
          · exact Or.inl ⟨p, by rw [edge]; exact List.mem_append.mpr (Or.inr hp), rfl⟩
          · exact Or.inr ⟨q, c, by rw [eleq]; exact List.mem_append.mpr (Or.inr hqc), hset⟩
  | Entries.consEntryErr rest, cfg, srcPath, new_dir, t => by
    intro hok
    exact trace_shape_entries rest cfg srcPath new_dir t hok
  | Entries.consTypeErr rest, cfg, srcPath, new_dir, t => by
    intro hok
    exact trace_shape_entries rest cfg srcPath new_dir t hok
end

mutual
/-- Every directory of the subtree has its `create_dir_all` in the trace,
and every recorded file write has a matching operation in the trace. -/
theorem trace_exists_node : ∀ (n : Node) (cfg : Config) (parent : String)
    (out_dir : List String) (t : List FsOp),
    handle_node cfg parent n out_dir = Except.ok t →
    (∀ p ∈ ndirs n, FsOp.mkdirAll (out_dir ++ p) ∈ t) ∧
    (∀ q c, (q, some c) ∈ nleaves cfg n → ∃ op ∈ t, setsFile op (out_dir ++ q) c)
  | Node.file nm data, cfg, parent, out_dir, t => by
    intro hok
    rw [show handle_node cfg parent (Node.file nm data) out_dir =
        handle_file cfg parent nm data out_dir from rfl,
      handle_file_classified] at hok
    constructor
    · intro p hp
      simp [ndirs] at hp
    · intro q c hqc
      cases hcl : classifySpec cfg nm with
      | passthroughCopy =>
        rw [hcl] at hok
        cases data <;>
        · injection hok with ht
          subst ht
          simp [nleaves, hcl] at hqc
          obtain ⟨rfl, rfl⟩ := hqc
          exact ⟨_, List.mem_singleton_self _, Or.inr ⟨_, rfl, rfl⟩⟩
      | minifyAs w =>
        rw [hcl] at hok
        cases data with
        | text src =>
          injection hok with ht
          subst ht
          simp [nleaves, hcl] at hqc
          obtain ⟨rfl, rfl⟩ := hqc
          exact ⟨_, List.mem_singleton_self _, Or.inl rfl⟩
        | binary => exact Except.noConfusion hok
      | ignore =>
        rw [hcl] at hok
        simp [nleaves, hcl] at hqc
  | Node.dir nm readable es, cfg, parent, out_dir, t => by
    intro hok
    cases readable with
    | false => simp [handle_node] at hok
    | true =>
      rw [show handle_node cfg parent (Node.dir nm true es) out_dir =
          (match handle_entries cfg (pathJoin parent nm) es (out_dir ++ [nm]) with
           | Except.ok ops => Except.ok (FsOp.mkdirAll (out_dir ++ [nm]) :: ops)
           | Except.error e => Except.error e) from rfl] at hok
      cases he : handle_entries cfg (pathJoin parent nm) es (out_dir ++ [nm]) with
      | error e => rw [he] at hok; exact Except.noConfusion hok
      | ok ops =>
        rw [he] at hok
        injection hok with ht
        subst ht
        obtain ⟨ihd, ihf⟩ := trace_exists_entries es cfg (pathJoin parent nm)
          (out_dir ++ [nm]) ops he
        constructor
        · intro p hp
          rw [show ndirs (Node.dir nm true es) =
              [nm] :: (edirs es).map (fun p => nm :: p) from rfl] at hp
          rcases List.mem_cons.mp hp with rfl | hp
          · exact List.mem_cons_self _ _
          · obtain ⟨p₁, hp₁, rfl⟩ := List.mem_map.mp hp
            have := ihd p₁ hp₁
            have hx : (out_dir ++ [nm]) ++ p₁ = out_dir ++ nm :: p₁ := by simp
            rw [hx] at this
            exact List.mem_cons_of_mem _ this
        · intro q c hqc
          rw [show nleaves cfg (Node.dir nm true es) =
              (eleaves cfg es).map (fun pc => (nm :: pc.1, pc.2)) from rfl] at hqc
          obtain ⟨⟨q₁, x₁⟩, hm, heq⟩ := List.mem_map.mp hqc
          injection heq with heq1 heq2
          subst heq2
          obtain ⟨op, hop, hset⟩ := ihf q₁ c hm
          refine ⟨op, List.mem_cons_of_mem _ hop, ?_⟩
          have hx : (out_dir ++ [nm]) ++ q₁ = out_dir ++ nm :: q₁ := by simp
          rw [hx] at hset
          rwa [← heq1]

/-- Entries-level version of `trace_exists_node`. -/
theorem trace_exists_entries : ∀ (es : Entries) (cfg : Config) (srcPath : String)
    (new_dir : List String) (t : List FsOp),
    handle_entries cfg srcPath es new_dir = Except.ok t →
    (∀ p ∈ edirs es, FsOp.mkdirAll (new_dir ++ p) ∈ t) ∧
    (∀ q c, (q, some c) ∈ eleaves cfg es → ∃ op ∈ t, setsFile op (new_dir ++ q) c)
  | Entries.nil, cfg, srcPath, new_dir, t => by
    intro hok
    constructor
    · intro p hp
      simp [edirs] at hp
    · intro q c hqc
      simp [eleaves] at hqc
  | Entries.consGood n rest, cfg, srcPath, new_dir, t => by
    intro hok
    rw [show handle_entries cfg srcPath (Entries.consGood n rest) new_dir =
        (match handle_node cfg srcPath n new_dir with
         | Except.ok ops₁ =>
           match handle_entries cfg srcPath rest new_dir with
           | Except.ok ops₂ => Except.ok (ops₁ ++ ops₂)
           | Except.error e => Except.error e
         | Except.error e => Except.error e) from rfl] at hok
    cases h1 : handle_node cfg srcPath n new_dir with
    | error e => rw [h1] at hok; exact Except.noConfusion hok
    | ok ops₁ =>
      rw [h1] at hok
      cases h2 : handle_entries cfg srcPath rest new_dir with
      | error e => rw [h2] at hok; exact Except.noConfusion hok
      | ok ops₂ =>
        rw [h2] at hok
        injection hok with ht
        subst ht
        obtain ⟨ihd1, ihf1⟩ := trace_exists_node n cfg srcPath new_dir ops₁ h1
        obtain ⟨ihd2, ihf2⟩ := trace_exists_entries rest cfg srcPath new_dir ops₂ h2
        constructor
        · intro p hp
          rcases List.mem_append.mp
              (show p ∈ ndirs n ++ edirs rest from hp) with hm | hm
          · exact List.mem_append.mpr (Or.inl (ihd1 p hm))
          · exact List.mem_append.mpr (Or.inr (ihd2 p hm))
        · intro q c hqc
          rcases List.mem_append.mp
              (show (q, some c) ∈ nleaves cfg n ++ eleaves cfg rest from hqc) with
            hm | hm
          · obtain ⟨op, hop, hset⟩ := ihf1 q c hm
            exact ⟨op, List.mem_append.mpr (Or.inl hop), hset⟩
          · obtain ⟨op, hop, hset⟩ := ihf2 q c hm
            exact ⟨op, List.mem_append.mpr (Or.inr hop), hset⟩
  | Entries.consEntryErr rest, cfg, srcPath, new_dir, t => by
    intro hok
    exact trace_exists_entries rest cfg srcPath new_dir t hok
  | Entries.consTypeErr rest, cfg, srcPath, new_dir, t => by
    intro hok
    exact trace_exists_entries rest cfg srcPath new_dir t hok
end

mutual
/-- In a well-formed tree a file's relative path is never a prefix of a
directory's relative path (in particular never equal to one). -/
theorem leaf_dir_node : ∀ (n : Node) (cfg : Config) (q : List String)
    (x : Option Content) (p : List String),
    wfN n = true → (q, x) ∈ nleaves cfg n → p ∈ ndirs n → ¬ q <+: p
  | Node.file nm data, cfg, q, x, p => by
    intro _ _ hp
    simp [ndirs] at hp
  | Node.dir nm r es, cfg, q, x, p => by
    intro hwf hq hp hpre
    rw [show wfN (Node.dir nm r es) = (nodupStr (goodNames es) && wfE es) from rfl,
      Bool.and_eq_true] at hwf
    obtain ⟨hnodup, hwfe⟩ := hwf
    rw [show nleaves cfg (Node.dir nm r es) =
        (eleaves cfg es).map (fun pc => (nm :: pc.1, pc.2)) from rfl] at hq
    obtain ⟨⟨q₁, x₁⟩, hm, heq⟩ := List.mem_map.mp hq
    injection heq with heq1 heq2
    subst heq2
    subst heq1
    rw [show ndirs (Node.dir nm r es) =
        [nm] :: (edirs es).map (fun p => nm :: p) from rfl] at hp
    rcases List.mem_cons.mp hp with rfl | hp
    · obtain ⟨-, hq₁⟩ := List.cons_prefix_cons.mp hpre
      rw [List.prefix_nil] at hq₁
      subst hq₁
      obtain ⟨nm', q', heq', -⟩ := eleaves_head cfg es [] x₁ hm
      exact List.noConfusion heq'
    · obtain ⟨p₁, hp₁, rfl⟩ := List.mem_map.mp hp
      obtain ⟨-, hq₁⟩ := List.cons_prefix_cons.mp hpre
      exact leaf_dir_entries es cfg q₁ x₁ p₁ hnodup hwfe hm hp₁ hq₁

/-- Entries-level version of `leaf_dir_node`. -/
theorem leaf_dir_entries : ∀ (es : Entries) (cfg : Config) (q : List String)
    (x : Option Content) (p : List String),
    nodupStr (goodNames es) = true → wfE es = true →
    (q, x) ∈ eleaves cfg es → p ∈ edirs es → ¬ q <+: p
  | Entries.nil, cfg, q, x, p => by
    intro _ _ _ hp
    simp [edirs] at hp
  | Entries.consGood n rest, cfg, q, x, p => by
    intro hnodup hwfe hq hp hpre
    rw [show nodupStr (goodNames (Entries.consGood n rest)) =
        (!(goodNames rest).contains (nodeName n) && nodupStr (goodNames rest))
        from rfl, Bool.and_eq_true] at hnodup
    obtain ⟨hnc, hnodup'⟩ := hnodup
    have hnm : nodeName n ∉ goodNames rest := by
      intro hm
      rw [(contains_iff _ _).mpr hm] at hnc
      simp at hnc
    rw [show wfE (Entries.consGood n rest) = (wfN n && wfE rest) from rfl,
      Bool.and_eq_true] at hwfe
    obtain ⟨hwn, hwr⟩ := hwfe
    have hql : (q, x) ∈ nleaves cfg n ++ eleaves cfg rest := hq
    have hpl : p ∈ ndirs n ++ edirs rest := hp
    rcases List.mem_append.mp hql with hq1 | hq1 <;>
      rcases List.mem_append.mp hpl with hp1 | hp1
    · exact leaf_dir_node n cfg q x p hwn hq1 hp1 hpre
    · obtain ⟨q', rfl⟩ := nleaves_head cfg n q x hq1
      obtain ⟨nm', p', rfl, hg⟩ := edirs_head rest p hp1
      obtain ⟨heq, -⟩ := List.cons_prefix_cons.mp hpre
      rw [← heq] at hg
      exact hnm hg
    · obtain ⟨nm', q', rfl, hg⟩ := eleaves_head cfg rest q x hq1
      obtain ⟨p', rfl⟩ := ndirs_head n p hp1
      obtain ⟨heq, -⟩ := List.cons_prefix_cons.mp hpre
      rw [heq] at hg
      exact hnm hg
    · exact leaf_dir_entries rest cfg q x p hnodup' hwr hq1 hp1 hpre
  | Entries.consEntryErr rest, cfg, q, x, p => by
    intro hnodup hwfe hq hp
    exact leaf_dir_entries rest cfg q x p hnodup hwfe hq hp
  | Entries.consTypeErr rest, cfg, q, x, p => by
    intro hnodup hwfe hq hp
    exact leaf_dir_entries rest cfg q x p hnodup hwfe hq hp
end

mutual
/-- In a well-formed tree a relative file path carries a single tag: the
run writes at most one content there, and never both writes a file and
ignores one at the same path. -/
theorem leaf_fun_node : ∀ (n : Node) (cfg : Config) (q : List String)
    (x y : Option Content),
    wfN n = true → (q, x) ∈ nleaves cfg n → (q, y) ∈ nleaves cfg n → x = y
  | Node.file nm data, cfg, q, x, y => by
    intro _ hx hy
    cases hcl : classifySpec cfg nm with
    | passthroughCopy =>
      simp [nleaves, hcl] at hx hy
      rw [hx.2, hy.2]
    | minifyAs w =>
      cases data with
      | text src =>
        simp [nleaves, hcl] at hx hy
        rw [hx.2, hy.2]
      | binary => simp [nleaves, hcl] at hx
    | ignore =>
      simp [nleaves, hcl] at hx hy
      rw [hx.2, hy.2]
  | Node.dir nm r es, cfg, q, x, y => by
    intro hwf hx hy
    rw [show wfN (Node.dir nm r es) = (nodupStr (goodNames es) && wfE es) from rfl,
      Bool.and_eq_true] at hwf
    obtain ⟨hnodup, hwfe⟩ := hwf
    rw [show nleaves cfg (Node.dir nm r es) =
        (eleaves cfg es).map (fun pc => (nm :: pc.1, pc.2)) from rfl] at hx hy
    obtain ⟨a, hm1, heq1⟩ := List.mem_map.mp hx
    obtain ⟨b, hm2, heq2⟩ := List.mem_map.mp hy
    injection heq1 with ha1 hb1
    injection heq2 with ha2 hb2
    subst hb1
    subst hb2
    rw [← ha1] at ha2
    injection ha2 with hh ht
    have hm2' : (b.1, b.2) ∈ eleaves cfg es := hm2
    rw [ht] at hm2'
    exact leaf_fun_entries es cfg a.1 a.2 b.2 hnodup hwfe hm1 hm2'

/-- Entries-level version of `leaf_fun_node`. -/
theorem leaf_fun_entries : ∀ (es : Entries) (cfg : Config) (q : List String)
    (x y : Option Content),
    nodupStr (goodNames es) = true → wfE es = true →
    (q, x) ∈ eleaves cfg es → (q, y) ∈ eleaves cfg es → x = y
  | Entries.nil, cfg, q, x, y => by
    intro _ _ hx _
    simp [eleaves] at hx
  | Entries.consGood n rest, cfg, q, x, y => by
    intro hnodup hwfe hx hy
    rw [show nodupStr (goodNames (Entries.consGood n rest)) =
        (!(goodNames rest).contains (nodeName n) && nodupStr (goodNames rest))
        from rfl, Bool.and_eq_true] at hnodup
    obtain ⟨hnc, hnodup'⟩ := hnodup
    have hnm : nodeName n ∉ goodNames rest := by
      intro hm
      rw [(contains_iff _ _).mpr hm] at hnc
      simp at hnc
    rw [show wfE (Entries.consGood n rest) = (wfN n && wfE rest) from rfl,
      Bool.and_eq_true] at hwfe
    obtain ⟨hwn, hwr⟩ := hwfe
    have hxl : (q, x) ∈ nleaves cfg n ++ eleaves cfg rest := hx
    have hyl : (q, y) ∈ nleaves cfg n ++ eleaves cfg rest := hy
    rcases List.mem_append.mp hxl with h1 | h1 <;>
      rcases List.mem_append.mp hyl with h2 | h2
    · exact leaf_fun_node n cfg q x y hwn h1 h2
    · obtain ⟨q', rfl⟩ := nleaves_head cfg n q x h1
      obtain ⟨nm', q'', heq, hg⟩ := eleaves_head cfg rest _ y h2
      injection heq with he1 he2
      rw [← he1] at hg
      exact absurd hg hnm
    · obtain ⟨q', rfl⟩ := nleaves_head cfg n q y h2
      obtain ⟨nm', q'', heq, hg⟩ := eleaves_head cfg rest _ x h1
      injection heq with he1 he2
      rw [← he1] at hg
      exact absurd hg hnm
    · exact leaf_fun_entries rest cfg q x y hnodup' hwr h1 h2
  | Entries.consEntryErr rest, cfg, q, x, y => by
    intro hnodup hwfe hx hy
    exact leaf_fun_entries rest cfg q x y hnodup hwfe hx hy
  | Entries.consTypeErr rest, cfg, q, x, y => by
    intro hnodup hwfe hx hy
    exact leaf_fun_entries rest cfg q x y hnodup hwfe hx hy
end

/-- C5: after a successful run over a well-formed source tree, every
directory of the source has a directory at the identical relative path
under the mirrored destination root, every PassthroughCopy or MinifyAs
file's content sits at its identical relative path, and a path holding an
Ignore-classified file is left untouched by the run (no destination entry
is created for it). -/
theorem c5_structural_mirror (cfg : Config) (parent : String) (n : Node)
    (out_dir : List String) (t : List FsOp)
    (hwf : wfN n = true)
    (hok : handle_node cfg parent n out_dir = Except.ok t) :
    (∀ p ∈ ndirs n, ∀ s : DestState, applyOps t s (out_dir ++ p) = some Entry.dirE) ∧
    (∀ q c, (q, some c) ∈ nleaves cfg n →
      ∀ s : DestState, applyOps t s (out_dir ++ q) = some (Entry.fileE c)) ∧
    (∀ q, (q, none) ∈ nleaves cfg n →
      ∀ s : DestState, applyOps t s (out_dir ++ q) = s (out_dir ++ q)) := by
  have hshape := trace_shape_node n cfg parent out_dir t hok
  obtain ⟨hexd, hexf⟩ := trace_exists_node n cfg parent out_dir t hok
  refine ⟨?_, ?_, ?_⟩
  · intro p hp s
    apply applyOps_of_all
    · intro op hop
      rcases hshape op hop with ⟨p', hp', rfl⟩ | ⟨q, c, hqc, hset⟩
      · exact effect_mkdir_cases (out_dir ++ p') (out_dir ++ p)
      · rw [setsFile_effect op (out_dir ++ q) c hset]
        split
        next h =>
          exfalso
          have hpq : p = q := List.append_cancel_left h
          subst hpq
          exact leaf_dir_node n cfg p (some c) p hwf hqc hp List.prefix_rfl
        next => exact Or.inl rfl
    · refine ⟨FsOp.mkdirAll (out_dir ++ p), hexd p hp, ?_⟩
      obtain ⟨p', rfl⟩ := ndirs_head n p hp
      have hcond : (!(out_dir ++ nodeName n :: p').isEmpty &&
          segPre (out_dir ++ nodeName n :: p') (out_dir ++ nodeName n :: p')) = true := by
        have h2 : segPre (out_dir ++ nodeName n :: p') (out_dir ++ nodeName n :: p') = true :=
          (segPre_iff _ _).mpr List.prefix_rfl
        simp [h2]
      simp only [effectOn]
      rw [if_pos hcond]
  · intro q c hqc s
    apply applyOps_of_all
    · intro op hop
      rcases hshape op hop with ⟨p', hp', rfl⟩ | ⟨q', c', hqc', hset⟩
      · simp only [effectOn]
        split
        next h =>
          exfalso
          rw [Bool.and_eq_true] at h
          obtain ⟨h1, h2⟩ := h
          have hqp : q <+: p' :=
            (List.prefix_append_right_inj out_dir).mp ((segPre_iff _ _).mp h2)
          exact leaf_dir_node n cfg q (some c) p' hwf hqc hp' hqp
        next => exact Or.inl rfl
      · rw [setsFile_effect op (out_dir ++ q') c' hset]
        split
        next h =>
          have hqq : q = q' := List.append_cancel_left h
          subst hqq
          have hc : some c = some c' := leaf_fun_node n cfg q (some c) (some c') hwf hqc hqc'
          injection hc with hc
          right
          rw [hc]
        next => exact Or.inl rfl
    · obtain ⟨op, hop, hset⟩ := hexf q c hqc
      refine ⟨op, hop, ?_⟩
      rw [setsFile_effect op (out_dir ++ q) c hset]
      simp
  · intro q hq s
    apply applyOps_untouched
    intro op hop
    rcases hshape op hop with ⟨p', hp', rfl⟩ | ⟨q', c', hqc', hset⟩
    · simp only [effectOn]
      split
      next h =>
        exfalso
        rw [Bool.and_eq_true] at h
        obtain ⟨h1, h2⟩ := h
        have hqp : q <+: p' :=
          (List.prefix_append_right_inj out_dir).mp ((segPre_iff _ _).mp h2)
        exact leaf_dir_node n cfg q none p' hwf hq hp' hqp
      next => rfl
    · rw [setsFile_effect op (out_dir ++ q') c' hset]
      split
      next h =>
        exfalso
        have hqq : q = q' := List.append_cancel_left h
        subst hqq
        have hx := leaf_fun_node n cfg q none (some c') hwf hq hqc'
        exact Option.noConfusion hx
      next => rfl

/-- C1 (counterexample): calling `set_nomangle` / `set_other_extensions`
with a non-empty list while the store is already set does not fail: both
calls return without error and keep the previously stored list, refuting
the claim that such a call fails fatally with an already-initialized
error. -/
theorem c1_counterexample :
    set_nomangle (some ["a.js"]) ["b.js"] = Except.ok (some ["a.js"]) ∧
    set_other_extensions (some [".png"]) [".jpg"] = Except.ok (some [".png"]) :=
  ⟨rfl, rfl⟩

/-- C1 (amended): for every call to `set_nomangle` or
`set_other_extensions` when the corresponding store is already set, the
call is a silent no-op: it returns without error and the store keeps its
old value — neither a fatal already-initialized failure nor an
overwrite.  The guard `NO_MANGLE.get().is_none()` makes the `expect`
branch unreachable in single-threaded use. -/
theorem c1_silent_noop (old files : List String) :
    set_nomangle (some old) files = Except.ok (some old) ∧
    set_other_extensions (some old) files = Except.ok (some old) := by
  constructor <;> simp [set_nomangle, set_other_extensions]

/-- C2 (counterexample): a `.css` file whose content does not decode as
text is not treated as Ignore: `handle_file` raises the fatal
`Failed to read` panic instead of producing no output and no error. -/
theorem c2_counterexample :
    handle_file { no_mangle := none, other_extensions := none } "assets" "style.css"
      FileData.binary ["o"] ≠ Except.ok [] ∧
    handle_file { no_mangle := none, other_extensions := none } "assets" "style.css"
      FileData.binary ["o"] = Except.error "Failed to read assets/style.css" := by
  refine ⟨fun hc => ?_, rfl⟩
  rw [show handle_file { no_mangle := none, other_extensions := none } "assets"
      "style.css" FileData.binary ["o"] =
      Except.error "Failed to read assets/style.css" from rfl] at hc
  exact Except.noConfusion hc

/-- C2 (amended): every file that receives a MinifyAs verdict but whose
content cannot be decoded as text makes the run abort with the fatal
`Failed to read` error naming the file's path; it is not silently treated
as Ignore. -/
theorem c2_binary_fatal (cfg : Config) (parent name : String)
    (out_dir : List String) (w : WebType)
    (h : classifySpec cfg name = FileVerdict.minifyAs w) :
    handle_file cfg parent name FileData.binary out_dir =
      Except.error ("Failed to read " ++ pathJoin parent name) := by
  rw [handle_file_classified, h]

/-- C2 (witness): `c2_binary_fatal` at a concrete undecodable `.css`
file. -/
theorem c2_binary_fatal_witness :
    handle_file { no_mangle := none, other_extensions := none } "assets" "style.css"
      FileData.binary ["o"] =
      Except.error ("Failed to read " ++ pathJoin "assets" "style.css") :=
  c2_binary_fatal { no_mangle := none, other_extensions := none } "assets"
    "style.css" ["o"] WebType.css (by decide)

/-- C3 (counterexample): a directory whose listing yields one erroring
entry and one entry with a failing `file_type()` still walks successfully
— the erroring entries are silently skipped and the run continues,
refuting the claim that every per-entry filesystem error is fatal. -/
theorem c3_counterexample :
    handle_node { no_mangle := none, other_extensions := none } ""
      (Node.dir "assets" true (Entries.consEntryErr (Entries.consTypeErr Entries.nil)))
      ["out"] = Except.ok [FsOp.mkdirAll ["out", "assets"]] := rfl

/-- C3 (amended): a failing `read_dir` on a directory is fatal and aborts
the run with the code's panic message, but a failure to read an
individual directory entry (dropped by `.flatten()`) or to determine an
entry's file type (dropped by `if let Ok`) silently skips that entry and
the walk continues. -/
theorem c3_fatal_vs_skipped (cfg : Config) (parent nm srcPath : String)
    (es rest : Entries) (out_dir new_dir : List String) :
    handle_node cfg parent (Node.dir nm false es) out_dir =
      Except.error ("Failed to read files of " ++ pathJoin parent nm) ∧
    handle_entries cfg srcPath (Entries.consEntryErr rest) new_dir =
      handle_entries cfg srcPath rest new_dir ∧
    handle_entries cfg srcPath (Entries.consTypeErr rest) new_dir =
      handle_entries cfg srcPath rest new_dir :=
  ⟨rfl, rfl, rfl⟩

/-- C4: `handle_file` follows the spec's strict classification priority,
as captured by `classifySpec`: a registered passthrough suffix wins over
the built-in `.css`/`.js`/`.html` rules and yields a verbatim copy, else
the matching minify verdict is applied to decoded text, and otherwise the
file is ignored and no destination operation is produced. -/
theorem c4_classification (cfg : Config) (parent name : String)
    (data : FileData) (out_dir : List String) :
    handle_file cfg parent name data out_dir =
      match classifySpec cfg name, data with
      | FileVerdict.passthroughCopy, _ =>
          Except.ok [FsOp.copy (out_dir ++ [name]) data]
      | FileVerdict.minifyAs w, FileData.text src =>
          Except.ok [FsOp.write (out_dir ++ [name]) (minifiedContent cfg w name src)]
      | FileVerdict.minifyAs _, FileData.binary =>
          Except.error ("Failed to read " ++ pathJoin parent name)
      | FileVerdict.ignore, _ => Except.ok [] :=
  handle_file_classified cfg parent name data out_dir

/-- C6: a file dispatched to the Js adapter is minified with the mangle
pass enabled exactly when its filename is not in the exemption store,
while the compression pass (`compress := true`) and compact emission
(codegen `minify: true`, the `true` argument of `jsMin`) are applied in
both cases. -/
theorem c6_js_mangle (cfg : Config) (parent name src : String)
    (out_dir : List String)
    (h : classifySpec cfg name = FileVerdict.minifyAs WebType.js) :
    handle_file cfg parent name (FileData.text src) out_dir =
      Except.ok [FsOp.write (out_dir ++ [name])
        (Content.jsMin
          { mangle := !check_nomangle cfg.no_mangle name, compress := true }
          true src)] ∧
    ((!check_nomangle cfg.no_mangle name) = true ↔
      ¬ ∃ l, cfg.no_mangle = some l ∧ name ∈ l) := by
  constructor
  · rw [handle_file_classified, h]
    rfl
  · constructor
    · intro hb hex
      obtain ⟨l, hl, hm⟩ := hex
      rw [hl] at hb
      rw [show check_nomangle (some l) name = l.contains name from rfl] at hb
      rw [(contains_iff _ _).mpr hm] at hb
      simp at hb
    · intro hne
      cases hb : check_nomangle cfg.no_mangle name with
      | false => rfl
      | true =>
        exfalso
        cases hnm : cfg.no_mangle with
        | none => rw [hnm] at hb; exact Bool.noConfusion hb
        | some l =>
          rw [hnm] at hb
          exact hne ⟨l, hnm, (contains_iff _ _).mp hb⟩

/-- C6 (witness): `c6_js_mangle` at a concrete non-exempt `.js` file
under the sample configuration. -/
theorem c6_js_mangle_witness :
    (handle_file sampleCfg "assets" "app.js" (FileData.text "let x = 1;") ["o"] =
      Except.ok [FsOp.write (["o"] ++ ["app.js"])
        (Content.jsMin
          { mangle := !check_nomangle sampleCfg.no_mangle "app.js", compress := true }
          true "let x = 1;")]) ∧
    ((!check_nomangle sampleCfg.no_mangle "app.js") = true ↔
      ¬ ∃ l, sampleCfg.no_mangle = some l ∧ "app.js" ∈ l) :=
  c6_js_mangle sampleCfg "assets" "app.js" "let x = 1;" ["o"] (by decide)

/-- C7: both configuration readers return `false` on an unset store;
on a set store `check_extension` is true exactly when some registered
extension is a suffix of the filename, and `check_nomangle` is true
exactly when the filename equals a registered exemption. -/
theorem c7_readers (name : String) (l : List String) :
    check_extension none name = false ∧
    check_nomangle none name = false ∧
    (check_extension (some l) name = true ↔ ∃ e ∈ l, e.data <:+ name.data) ∧
    (check_nomangle (some l) name = true ↔ name ∈ l) := by
  refine ⟨rfl, rfl, ?_, ?_⟩
  · simp [check_extension, List.any_eq_true, strEndsWith, List.isSuffixOf_iff_suffix]
  · exact contains_iff l name

/-- C8: for every directory the walker visits, the `create_dir_all` of
its destination is the first operation of that directory's trace —
before any child entry's operation — it creates every missing
intermediate directory, and it is idempotent: applying it to a state
where those directories already exist changes nothing further. -/
theorem c8_mkdir_before_children (cfg : Config) (parent nm : String) (es : Entries)
    (out_dir : List String) (t : List FsOp)
    (hok : handle_node cfg parent (Node.dir nm true es) out_dir = Except.ok t) :
    (∃ rest, t = FsOp.mkdirAll (out_dir ++ [nm]) :: rest ∧
      handle_entries cfg (pathJoin parent nm) es (out_dir ++ [nm]) = Except.ok rest) ∧
    (∀ (s : DestState) (q : List String), q ≠ [] → q <+: out_dir ++ [nm] →
      applyOp s (FsOp.mkdirAll (out_dir ++ [nm])) q = some Entry.dirE) ∧
    (∀ (s : DestState) (q : List String),
      applyOp (applyOp s (FsOp.mkdirAll (out_dir ++ [nm])))
          (FsOp.mkdirAll (out_dir ++ [nm])) q =
        applyOp s (FsOp.mkdirAll (out_dir ++ [nm])) q) := by
  refine ⟨?_, ?_, ?_⟩
  · rw [show handle_node cfg parent (Node.dir nm true es) out_dir =
        (match handle_entries cfg (pathJoin parent nm) es (out_dir ++ [nm]) with
         | Except.ok ops => Except.ok (FsOp.mkdirAll (out_dir ++ [nm]) :: ops)
         | Except.error e => Except.error e) from rfl] at hok
    cases he : handle_entries cfg (pathJoin parent nm) es (out_dir ++ [nm]) with
    | error e => rw [he] at hok; exact Except.noConfusion hok
    | ok ops =>
      rw [he] at hok
      injection hok with ht
      exact ⟨ops, ht.symm, rfl⟩
  · intro s q hne hpre
    have h1 : q.isEmpty = false := by
      cases q with
      | nil => exact absurd rfl hne
      | cons a l => rfl
    have h2 : segPre q (out_dir ++ [nm]) = true := (segPre_iff _ _).mpr hpre
    simp only [applyOp]
    rw [if_pos (by simp [h1, h2])]
  · intro s q
    simp only [applyOp]
    split
    next => rfl
    next => rfl

/-- C8 (witness): `c8_mkdir_before_children` at a concrete directory. -/
theorem c8_witness :
    (∃ rest, [FsOp.mkdirAll ["o", "assets"]] =
        FsOp.mkdirAll (["o"] ++ ["assets"]) :: rest ∧
      handle_entries sampleCfg (pathJoin "" "assets") Entries.nil (["o"] ++ ["assets"]) =
        Except.ok rest) ∧
    (∀ (s : DestState) (q : List String), q ≠ [] → q <+: ["o"] ++ ["assets"] →
      applyOp s (FsOp.mkdirAll (["o"] ++ ["assets"])) q = some Entry.dirE) ∧
    (∀ (s : DestState) (q : List String),
      applyOp (applyOp s (FsOp.mkdirAll (["o"] ++ ["assets"])))
          (FsOp.mkdirAll (["o"] ++ ["assets"])) q =
        applyOp s (FsOp.mkdirAll (["o"] ++ ["assets"])) q) :=
  c8_mkdir_before_children sampleCfg "" "assets" Entries.nil ["o"]
    [FsOp.mkdirAll ["o", "assets"]] rfl

/-- C9: the operations of a successful run are a pure function of the
unchanged source, and re-applying them to the destination state produced
by the first run yields the identical destination content: every write
overwrites the file it wrote before and every directory creation finds
the directory already in place, with no failure in the model's
`std::fs` semantics. -/
theorem c9_rerun_identical (cfg : Config) (parent : String) (n : Node)
    (out_dir : List String) (t : List FsOp)
    (hok : handle_node cfg parent n out_dir = Except.ok t) :
    ∀ (s : DestState) (q : List String),
      applyOps t (applyOps t s) q = applyOps t s q := by
  intro s q
  rw [applyOps_lastEff t (applyOps t s) q, applyOps_lastEff t s q]
  cases h : lastEff t q with
  | some e => rfl
  | none => rfl

/-- C9 (witness): `c9_rerun_identical` on the sample tree's trace, at the
empty initial destination and a concrete written path. -/
theorem c9_witness :
    applyOps sampleTrace (applyOps sampleTrace (fun _ => none))
        ["o", "assets", "a.css"] =
      applyOps sampleTrace (fun _ => none) ["o", "assets", "a.css"] :=
  c9_rerun_identical sampleCfg "" sampleTree ["o"] sampleTrace rfl
    (fun _ => none) ["o", "assets", "a.css"]

/-- C5 (witness): `c5_structural_mirror` on the sample tree. -/
theorem c5_witness :
    (∀ p ∈ ndirs sampleTree, ∀ s : DestState,
      applyOps sampleTrace s (["o"] ++ p) = some Entry.dirE) ∧
    (∀ q c, (q, some c) ∈ nleaves sampleCfg sampleTree →
      ∀ s : DestState, applyOps sampleTrace s (["o"] ++ q) = some (Entry.fileE c)) ∧
    (∀ q, (q, none) ∈ nleaves sampleCfg sampleTree →
      ∀ s : DestState, applyOps sampleTrace s (["o"] ++ q) = s (["o"] ++ q)) :=
  c5_structural_mirror sampleCfg "" sampleTree ["o"] sampleTrace rfl rfl

/-- C10: if the registered passthrough extension list contains the empty
string, `check_extension` accepts every filename (the empty string is a
suffix of every string), so every file is classified PassthroughCopy and
copied verbatim — no file is ever minified or ignored. -/
theorem c10_empty_suffix (nm : Option (List String)) (l : List String)
    (parent name : String) (data : FileData) (out_dir : List String)
    (h : "" ∈ l) :
    check_extension (some l) name = true ∧
    classifySpec { no_mangle := nm, other_extensions := some l } name =
      FileVerdict.passthroughCopy ∧
    handle_file { no_mangle := nm, other_extensions := some l } parent name data out_dir =
      Except.ok [FsOp.copy (out_dir ++ [name]) data] := by
  have hce : check_extension (some l) name = true := by
    rw [show check_extension (some l) name =
        l.any (fun e => strEndsWith name e) from rfl, List.any_eq_true]
    refine ⟨"", h, ?_⟩
    rw [show strEndsWith name "" = List.isSuffixOf [] name.data from rfl]
    exact List.isSuffixOf_iff_suffix.mpr List.nil_suffix
  refine ⟨hce, ?_, ?_⟩
  · simp [classifySpec, hce]
  · simp [handle_file, hce]

/-- C10 (witness): `c10_empty_suffix` at a file with an unregistered
extension, copied verbatim because `""` is registered. -/
theorem c10_witness :
    check_extension (some [""]) "photo.jpg" = true ∧
    classifySpec { no_mangle := none, other_extensions := some [""] } "photo.jpg" =
      FileVerdict.passthroughCopy ∧
    handle_file { no_mangle := none, other_extensions := some [""] } "assets"
      "photo.jpg" (FileData.text "JPEG") ["o"] =
      Except.ok [FsOp.copy (["o"] ++ ["photo.jpg"]) (FileData.text "JPEG")] :=
  c10_empty_suffix none [""] "assets" "photo.jpg" (FileData.text "JPEG") ["o"]
    (by decide)

end TcloudAssets
